import Mathlib

/-!
Shallow embedding of `src/ovotools/pytorch_tools.py` (class `MarginBaseLoss`).

Tensors are embedded as lists of real numbers: a 2-D float tensor becomes a
`List (List ℝ)` (one inner list per row); float arithmetic is embedded as
exact real arithmetic.  Indexing a tensor out of range raises in PyTorch;
the total functions below use `List.getD` defaults, and the `Option`-valued
method layer further down guards exactly the conditions under which the
Python code raises (failed `assert`, out-of-range index, empty sampling
population), so `none` models an exception escaping the method.

The random draws of `np.random.choice` are modelled by explicit draw
functions handed to the loop, together with the predicate (`weight … ≠ 0`)
that characterises which indices `np.random.choice` can actually return:
an index is returnable exactly when its (normalised) probability is nonzero.
-/

/-- Dot product of two rows, `torch.mm` restricted to one entry of the
result: entrywise product summed. -/
def dot (xs ys : List ℝ) : ℝ := (List.zipWith (fun a b => a * b) xs ys).sum

/-- Squared euclidean norm of a row: `(pred_embeddings ** 2).sum(1)` for one
row. -/
def rowNorm (xs : List ℝ) : ℝ := dot xs xs

/-- Row `i` of the embedding batch, `pred_embeddings[i]`. -/
def row (pe : List (List ℝ)) (i : ℕ) : List ℝ := pe.getD i []

/-- The pre-sqrt distance matrix entry:
`norm.view(-1,1) + norm.view(1,-1) - 2 * torch.mm(pe, pe.T)` at `[i, j]`. -/
def d2 (pe : List (List ℝ)) (i j : ℕ) : ℝ :=
  rowNorm (row pe i) + rowNorm (row pe j) - 2 * dot (row pe i) (row pe j)

/-- The distance matrix `self.d_ij`:
`torch.sqrt(torch.clamp(d2, min=0.0) + 1.0e-8)` at `[i, j]`
(`clamp(x, min=m)` is `max x m`). -/
noncomputable def d_ij (pe : List (List ℝ)) (i j : ℕ) : ℝ :=
  Real.sqrt (max (d2 pe i j) 0 + 1.0e-8)

/-- Embedding dimensionality, `pred_embeddings[0].shape[0]`. -/
def dimOf (pe : List (List ℝ)) : ℕ := (row pe 0).length

/-- Sampling density `prob = torch.exp(-(d - 1.4142135623730951)**2 * dim)`
for entry `t` of row `i` (the float literal is kept verbatim). -/
noncomputable def prob (pe : List (List ℝ)) (i t : ℕ) : ℝ :=
  Real.exp (-(d_ij pe i t - 1.4142135623730951) ^ 2 * (dimOf pe : ℝ))

/-- Sampling weight `weights = 1/prob.clamp(min=lambda_rev)` followed by
`weights[i] = 0` ("dont join with itself"). -/
noncomputable def weight (pe : List (List ℝ)) (lambdaRev : ℝ) (i t : ℕ) : ℝ :=
  if t = i then 0 else 1 / max (prob pe i t) lambdaRev

/-- Every weight other than the self-weight is strictly positive: the
exponential density is positive, so the clamped denominator is positive. -/
theorem weight_pos (pe : List (List ℝ)) (lambdaRev : ℝ) (i t : ℕ)
    (h : t ≠ i) : 0 < weight pe lambdaRev i t := by
  unfold weight
  rw [if_neg h]
  have hp : (0 : ℝ) < prob pe i t := Real.exp_pos _
  exact one_div_pos.mpr (lt_of_lt_of_le hp (le_max_left _ _))

/-- Start of the class block containing sample `i`: the loop variable
`i_start` of `range(0, n, samples_per_class)` equals this for every `i`
visited in its inner loop. -/
def blockStart (spc i : ℕ) : ℕ := spc * (i / spc)

/-- Re-indexing of the negative draw after `np.delete`:
`if k >= i_start: k += samples_per_class`. -/
def negAdjust (spc iStart k : ℕ) : ℕ := if iStart ≤ k then k + spc else k

/-- Accumulator of the sampling loop of `mb_loss`: the running `loss` sum
and the four running counters. -/
structure LState where
  lossAcc : ℝ
  true_pos : ℝ
  true_neg : ℝ
  false_pos : ℝ
  false_neg : ℝ

/-- Loop accumulator before the first iteration: `loss = 0` and the four
counters set to `0`. -/
def LState.start : LState := ⟨0, 0, 0, 0, 0⟩

/-- The positive-pair hinge term
`(alpha + (d_ij[i,j] - beta)).clamp(min=0)`. -/
noncomputable def posHinge (A B : ℝ) (pe : List (List ℝ)) (i j : ℕ) : ℝ :=
  max (A + (d_ij pe i j - B)) 0

/-- The negative-pair hinge term
`(alpha - (d_ij[i,k] - beta)).clamp(min=0)`. -/
noncomputable def negHinge (A B : ℝ) (pe : List (List ℝ)) (i k : ℕ) : ℝ :=
  max (A - (d_ij pe i k - B)) 0

/-- Number of entries of `d = d_ij[i,:]` in `[lo, hi)` that are classified
positive, `sum((d <= beta)[lo:hi])`. -/
noncomputable def posCount (B : ℝ) (pe : List (List ℝ)) (i lo hi : ℕ) : ℝ :=
  ∑ t in Finset.Ico lo hi, if d_ij pe i t ≤ B then (1 : ℝ) else 0

/-- Number of entries of `d = d_ij[i,:]` in `[lo, hi)` that are classified
negative, `sum((d > beta)[lo:hi])`. -/
noncomputable def negCount (B : ℝ) (pe : List (List ℝ)) (i lo hi : ℕ) : ℝ :=
  ∑ t in Finset.Ico lo hi, if B < d_ij pe i t then (1 : ℝ) else 0

/-- Body of the inner loop of `mb_loss` for sample `i` in the class block
`[iStart, iStart + spc)`, with `j := pos i` the positive draw and
`negAdjust spc iStart (neg i)` the re-indexed negative draw:
adds the two hinge terms to the running loss and the four slice sums to the
counters (`fn = sum(negative[i_start:i_end])` etc., with
`fp`/`tn` summing the two slices outside the block). -/
noncomputable def sampleStep (A B : ℝ) (pe : List (List ℝ)) (n spc : ℕ)
    (pos neg : ℕ → ℕ) (iStart i : ℕ) (s : LState) : LState :=
  { lossAcc := s.lossAcc + posHinge A B pe i (pos i)
      + negHinge A B pe i (negAdjust spc iStart (neg i)),
    true_pos := s.true_pos + posCount B pe i iStart (iStart + spc),
    true_neg := s.true_neg + (negCount B pe i 0 iStart + negCount B pe i (iStart + spc) n),
    false_pos := s.false_pos + (posCount B pe i 0 iStart + posCount B pe i (iStart + spc) n),
    false_neg := s.false_neg + negCount B pe i iStart (iStart + spc) }

/-- Number of iterations of `range(0, n, spc)`, i.e. `⌈n / spc⌉`. -/
def nBlocks (n spc : ℕ) : ℕ := (n + spc - 1) / spc

/-- The double loop of `mb_loss`:
`for i_start in range(0, n, spc): for i in range(i_start, i_start + spc): …`
starting from the zeroed accumulator.  The outer loop variable `i_start`
takes the values `spc * b` for `b < nBlocks n spc`. -/
noncomputable def mbLoop (A B : ℝ) (pe : List (List ℝ)) (spc : ℕ)
    (pos neg : ℕ → ℕ) : LState :=
  (List.range (nBlocks pe.length spc)).foldl
    (fun s b =>
      (List.range spc).foldl
        (fun s' r => sampleStep A B pe pe.length spc pos neg (spc * b) (spc * b + r) s')
        s)
    LState.start

/-- Value returned by `mb_loss`: the final `self.mb_loss_val`, i.e. the
accumulated `loss[0]` divided by `len(pred_embeddings)`. -/
noncomputable def mbLossVal (A B : ℝ) (pe : List (List ℝ)) (spc : ℕ)
    (pos neg : ℕ → ℕ) : ℝ :=
  (mbLoop A B pe spc pos neg).lossAcc / (pe.length : ℝ)

/-- The constructor's `self.classes = sorted(classes)` (labels are
integers, `int(c.item())`). -/
def sortedClasses (classes : List ℤ) : List ℤ :=
  List.insertionSort (fun a b => a ≤ b) classes

/-- The constructor's dictionary
`self.classes_dict = {v: i for i, v in enumerate(self.classes)}` read back
through `dict.get`: the comprehension inserts pairs in order, a later pair
with the same key overwriting an earlier one. -/
def classesDict (cs : List ℤ) (v : ℤ) : Option ℕ :=
  cs.enum.foldl (fun acc p => if p.2 = v then some p.1 else acc) none

/-- One label through `self.classes_dict.get(int(c.item()), ignore_index)`
with `ignore_index = -100`, as used by `classes_to_ids`. -/
def classToId (cs : List ℤ) (c : ℤ) : ℤ :=
  ((classesDict cs c).map Int.ofNat).getD (-100)

/-- The method `classes_to_ids` applied to a label batch (the `.to(device)`
move is value-irrelevant). -/
def classes_to_ids (cs : List ℤ) (y : List ℤ) : List ℤ :=
  y.map (classToId cs)

/-- Per-sample cross-entropy `-log softmax(logits)[t]` written as
`log (Σ exp) - logits[t]`; semantics of one unreduced term of
`torch.nn.CrossEntropyLoss`, as documented by PyTorch. -/
noncomputable def ceSample (logits : List ℝ) (t : ℕ) : ℝ :=
  Real.log ((logits.map Real.exp).sum) - logits.getD t 0

/-- Semantics of `torch.nn.CrossEntropyLoss(ignore_index=ig)(preds, ts)`
with the default mean reduction, as documented by PyTorch: the mean of the
per-sample terms over the samples whose target is not `ig`. -/
noncomputable def crossEntropy (ig : ℤ) (preds : List (List ℝ)) (ts : List ℤ) : ℝ :=
  ((((preds.zip ts).filter (fun p => p.2 ≠ ig)).map
      (fun p => ceSample p.1 p.2.toNat)).sum) /
    (((preds.zip ts).filter (fun p => p.2 ≠ ig)).length : ℝ)

/-- The model object, of which the loss code reads exactly the two scalar
parameters `mb_loss_alpha` and `mb_loss_beta`; `extra` stands for all the
other (unread) parameters of the network. -/
structure Model where
  mb_loss_alpha : ℝ
  mb_loss_beta : ℝ
  extra : ℝ

/-- The slice of `params` the class reads: `params.data.samples_per_class`
and `params.distance_weighted_sampling.lambda_`. -/
structure Params where
  samples_per_class : ℕ
  lambda_ : ℝ

/-- The immutable attributes set by `__init__` and read by the methods. -/
structure Config where
  model : Model
  classes : List ℤ
  params : Params
  lambda_rev : ℝ

/-- The tuple `net_output`: `net_output[0]` are the class logits,
`net_output[1]` the embedding batch. -/
structure NetOutput where
  pred_class : List (List ℝ)
  pred_embeddings : List (List ℝ)

/-- The attributes of a `MarginBaseLoss` object that the methods assign
(`self.l2_loss_val`, `self.mb_loss_val`, `self.loss_val`, `self.d_ij`, the
four counters) together with the re-assignable `self.timer`
(represented by an opaque tag). -/
structure MBLState where
  l2_loss_val : ℝ
  mb_loss_val : ℝ
  loss_val : ℝ
  dmat : ℕ → ℕ → ℝ
  true_pos : ℝ
  true_neg : ℝ
  false_pos : ℝ
  false_neg : ℝ
  timer_tag : ℕ

/-- The constructor `__init__`: `assert params.data.samples_per_class >= 2`
(modelled as `none` on failure), then the attribute set-up and the one
`print('classes: ', len(self.classes))`, whose written line is returned as
the output trace. -/
noncomputable def init (model : Model) (classes : List ℤ) (params : Params) :
    Option (Config × List String) :=
  if 2 ≤ params.samples_per_class then
    some ({ model := model, classes := sortedClasses classes, params := params,
            lambda_rev := 1 / params.lambda_ },
          ["classes:  " ++ toString (sortedClasses classes).length])
  else none

/-- The method `set_timer`. -/
def set_timer_m (s : MBLState) (t : ℕ) : MBLState := { s with timer_tag := t }

/-- Value computed by `l2_loss`: cross-entropy of the logits against the
translated class ids with `ignore_index = -100`. -/
noncomputable def l2LossVal (cfg : Config) (no : NetOutput) (y : List ℤ) : ℝ :=
  crossEntropy (-100) no.pred_class (classes_to_ids cfg.classes y)

/-- The method `l2_loss`: computes the value, stores it in
`self.l2_loss_val` and returns it; the empty list is its output trace. -/
noncomputable def l2_loss_m (cfg : Config) (s : MBLState) (no : NetOutput)
    (y : List ℤ) : ℝ × MBLState × List String :=
  (l2LossVal cfg no y, { s with l2_loss_val := l2LossVal cfg no y }, [])

/-- The embedding batch is a genuine 2-D tensor: every row has the common
dimensionality `pred_embeddings[0].shape[0]` (a jagged list of lists has no
2-D tensor counterpart, so this is the list-level reading of
`assert len(pred_embeddings.shape) == 2`). -/
def Rect (pe : List (List ℝ)) : Prop := ∀ r ∈ pe, r.length = dimOf pe

/-- Conditions under which `mb_loss` runs to completion instead of raising:
`pred_embeddings[0]` exists (`0 < n`), the batch is 2-D, the block loop
stays inside the batch (`spc ∣ n`), the negative-sampling population
`range(0, n - spc)` is nonempty (`spc < n`), every positive draw is an
element of its population `range(i_start, i_end)` and passes
`assert j != i`, and every negative draw is an element of
`range(0, n - spc)`. -/
def MBGuards (spc : ℕ) (pe : List (List ℝ)) (pos neg : ℕ → ℕ) : Prop :=
  0 < pe.length ∧ Rect pe ∧ spc ∣ pe.length ∧ spc < pe.length ∧
    ∀ i < pe.length, blockStart spc i ≤ pos i ∧ pos i < blockStart spc i + spc ∧
      pos i ≠ i ∧ neg i < pe.length - spc

instance RectDec (pe : List (List ℝ)) : Decidable (Rect pe) := by
  unfold Rect; infer_instance

instance MBGuardsDec (spc : ℕ) (pe : List (List ℝ)) (pos neg : ℕ → ℕ) :
    Decidable (MBGuards spc pe pos neg) := by
  unfold MBGuards; infer_instance

/-- The method `mb_loss`: when no assertion, indexing or sampling step
raises (the `MBGuards` conditions), it stores `self.d_ij`, the four
counters each divided by `n`, and `self.mb_loss_val = loss[0] / n`, and
returns the latter; its output trace is empty.  A raised exception is
`none`. -/
noncomputable def mb_loss_m (cfg : Config) (s : MBLState) (no : NetOutput)
    (pos neg : ℕ → ℕ) : Option (ℝ × MBLState × List String) :=
  let pe := no.pred_embeddings
  let spc := cfg.params.samples_per_class
  if MBGuards spc pe pos neg then
    let st := mbLoop cfg.model.mb_loss_alpha cfg.model.mb_loss_beta pe spc pos neg
    some (mbLossVal cfg.model.mb_loss_alpha cfg.model.mb_loss_beta pe spc pos neg,
      { s with
          mb_loss_val := mbLossVal cfg.model.mb_loss_alpha cfg.model.mb_loss_beta pe spc pos neg,
          dmat := d_ij pe,
          true_pos := st.true_pos / (pe.length : ℝ),
          true_neg := st.true_neg / (pe.length : ℝ),
          false_pos := st.false_pos / (pe.length : ℝ),
          false_neg := st.false_neg / (pe.length : ℝ) },
      [])
  else none

/-- The method `loss`:
`self.loss_val = self.l2_loss(net_output, y_class) + self.mb_loss(net_output, y_class)`
then `return self.loss_val`; output traces concatenate, an exception in
`mb_loss` propagates. -/
noncomputable def loss_m (cfg : Config) (s : MBLState) (no : NetOutput)
    (y : List ℤ) (pos neg : ℕ → ℕ) : Option (ℝ × MBLState × List String) :=
  let r1 := l2_loss_m cfg s no y
  match mb_loss_m cfg r1.2.1 no pos neg with
  | some r2 => some (r1.1 + r2.1, { r2.2.1 with loss_val := r1.1 + r2.1 }, r1.2.2 ++ r2.2.2)
  | none => none

/-- A left fold over `List.range k` whose step adds `c b` to the component
`g` of the state accumulates the sum of the `c b`. -/
theorem foldl_range_component {α : Type} (F : α → ℕ → α) (g : α → ℝ) (c : ℕ → ℝ)
    (h : ∀ s b, g (F s b) = g s + c b) (k : ℕ) (s : α) :
    g ((List.range k).foldl F s) = g s + ∑ b in Finset.range k, c b := by
  induction k with
  | zero => simp
  | succ k ih =>
      rw [List.range_succ, List.foldl_append, Finset.sum_range_succ]
      simp only [List.foldl_cons, List.foldl_nil]
      rw [h, ih, add_assoc]

/-- Flattening a block-structured sum over `q` blocks of width `spc`. -/
theorem sum_blocks (f : ℕ → ℝ) (spc : ℕ) (q : ℕ) :
    ∑ b in Finset.range q, ∑ r in Finset.range spc, f (spc * b + r)
      = ∑ i in Finset.range (spc * q), f i := by
  induction q with
  | zero => simp
  | succ q ih =>
      rw [Finset.sum_range_succ, ih, Nat.mul_succ, Finset.sum_range_add]

/-- With a positive block width, `range(0, spc * q, spc)` has `q`
iterations. -/
theorem nBlocks_mul (spc q : ℕ) (hspc : 0 < spc) : nBlocks (spc * q) spc = q := by
  unfold nBlocks
  have h1 : spc * q + spc - 1 = spc * q + (spc - 1) := by omega
  rw [h1, Nat.mul_add_div hspc, Nat.div_eq_of_lt (by omega), Nat.add_zero]

/-- A sample visited in the inner loop of block `b` has block start
`spc * b`. -/
theorem blockStart_eq (spc b r : ℕ) (hspc : 0 < spc) (hr : r < spc) :
    blockStart spc (spc * b + r) = spc * b := by
  unfold blockStart
  rw [Nat.mul_add_div hspc, Nat.div_eq_of_lt hr, Nat.add_zero]

/-- Over any index window the positive and negative classifications
partition: their counts add up to the window size. -/
theorem posCount_add_negCount (B : ℝ) (pe : List (List ℝ)) (i lo hi : ℕ) :
    posCount B pe i lo hi + negCount B pe i lo hi = ((hi - lo : ℕ) : ℝ) := by
  unfold posCount negCount
  rw [← Finset.sum_add_distrib]
  have h : ∀ t ∈ Finset.Ico lo hi,
      ((if d_ij pe i t ≤ B then (1 : ℝ) else 0) +
        if B < d_ij pe i t then (1 : ℝ) else 0) = 1 := by
    intro t _
    rcases le_or_lt (d_ij pe i t) B with h1 | h1
    · rw [if_pos h1, if_neg (not_lt.mpr h1), add_zero]
    · rw [if_neg (not_le.mpr h1), if_pos h1, zero_add]
  rw [Finset.sum_congr rfl h, Finset.sum_const, Nat.card_Ico, nsmul_eq_mul, mul_one]

/-- C10.  The distance matrix of `mb_loss` satisfies, entrywise,
`d_ij[i][j] = sqrt(max(|e_i|^2 + |e_j|^2 - 2<e_i,e_j>, 0) + 1e-8)`; it is
symmetric, and every entry (the diagonal included) is at least
`sqrt(1e-8)`, hence strictly positive. -/
theorem c10_distance_matrix (pe : List (List ℝ)) (i j : ℕ)
    (hi : i < pe.length) (hj : j < pe.length) :
    d_ij pe i j
        = Real.sqrt
            (max (rowNorm (row pe i) + rowNorm (row pe j)
                - 2 * dot (row pe i) (row pe j)) 0 + 1.0e-8) ∧
      d_ij pe i j = d_ij pe j i ∧
      Real.sqrt 1.0e-8 ≤ d_ij pe i j ∧ 0 < d_ij pe i j := by
  refine ⟨rfl, ?_, ?_, ?_⟩
  · unfold d_ij d2
    have hdot : dot (row pe i) (row pe j) = dot (row pe j) (row pe i) := by
      unfold dot
      rw [List.zipWith_comm_of_comm]
      intro x y
      exact mul_comm x y
    rw [hdot]
    ring_nf
  · unfold d_ij
    apply Real.sqrt_le_sqrt
    have h0 : (0 : ℝ) ≤ max (d2 pe i j) 0 := le_max_right _ _
    linarith
  · unfold d_ij
    apply Real.sqrt_pos.mpr
    have h0 : (0 : ℝ) ≤ max (d2 pe i j) 0 := le_max_right _ _
    have h8 : (0 : ℝ) < 1.0e-8 := by norm_num
    linarith

/-- C10 witness at a concrete 2-sample batch. -/
theorem c10_distance_matrix_witness :
    (0 : ℕ) < ([[1, 0], [0, 1]] : List (List ℝ)).length ∧
      (1 : ℕ) < ([[1, 0], [0, 1]] : List (List ℝ)).length ∧
      (d_ij [[1, 0], [0, 1]] 0 1
          = Real.sqrt
              (max (rowNorm (row [[1, 0], [0, 1]] 0) + rowNorm (row [[1, 0], [0, 1]] 1)
                  - 2 * dot (row [[1, 0], [0, 1]] 0) (row [[1, 0], [0, 1]] 1)) 0 + 1.0e-8) ∧
        d_ij [[1, 0], [0, 1]] 0 1 = d_ij [[1, 0], [0, 1]] 1 0 ∧
        Real.sqrt 1.0e-8 ≤ d_ij [[1, 0], [0, 1]] 0 1 ∧ 0 < d_ij [[1, 0], [0, 1]] 0 1) :=
  ⟨by decide, by decide, c10_distance_matrix [[1, 0], [0, 1]] 0 1 (by decide) (by decide)⟩

/-- C3.  Under the loop preconditions, a positive index returnable by
`np.random.choice` (nonzero weight) lies in the class block of `i` and
differs from `i` (so `assert j != i` cannot fail), and the re-indexed
negative draw lies in `[0, n)` and outside the class block of `i`. -/
theorem c3_sampling_indices (pe : List (List ℝ)) (lambdaRev : ℝ)
    (spc i j k0 : ℕ) (hspc : 2 ≤ spc) (hdvd : spc ∣ pe.length)
    (hlt : spc < pe.length) (hi : i < pe.length)
    (hj1 : blockStart spc i ≤ j) (hj2 : j < blockStart spc i + spc)
    (hjw : weight pe lambdaRev i j ≠ 0) (hk0 : k0 < pe.length - spc) :
    j ≠ i ∧ blockStart spc i ≤ j ∧ j < blockStart spc i + spc ∧
      negAdjust spc (blockStart spc i) k0 < pe.length ∧
      (negAdjust spc (blockStart spc i) k0 < blockStart spc i ∨
        blockStart spc i + spc ≤ negAdjust spc (blockStart spc i) k0) := by
  refine ⟨?_, hj1, hj2, ?_, ?_⟩
  · intro hji
    apply hjw
    unfold weight
    rw [if_pos hji]
  · unfold negAdjust
    split
    · omega
    · omega
  · unfold negAdjust
    split
    · right; omega
    · left; omega

/-- C3 witness at a concrete 4-sample batch with 2 samples per class. -/
theorem c3_sampling_indices_witness :
    (1 : ℕ) ≠ 0 ∧ blockStart 2 0 ≤ 1 ∧ 1 < blockStart 2 0 + 2 ∧
      negAdjust 2 (blockStart 2 0) 0 < ([[1, 0], [0, 1], [2, 1], [1, 3]] : List (List ℝ)).length ∧
      (negAdjust 2 (blockStart 2 0) 0 < blockStart 2 0 ∨
        blockStart 2 0 + 2 ≤ negAdjust 2 (blockStart 2 0) 0) :=
  c3_sampling_indices [[1, 0], [0, 1], [2, 1], [1, 3]] 5 2 0 1 0
    (by decide) (by decide) (by decide) (by decide) (by decide) (by decide)
    ((weight_pos [[1, 0], [0, 1], [2, 1], [1, 3]] 5 0 1 (by decide)).ne')
    (by decide)

/-- The accumulated `loss` of the sampling loop is the sum over all visited
samples of the two hinge terms. -/
theorem mbLoop_lossAcc (A B : ℝ) (pe : List (List ℝ)) (spc q : ℕ)
    (hspc : 0 < spc) (hq : pe.length = spc * q) :
    (mbLoop A B pe spc pos neg).lossAcc
      = ∑ i in Finset.range pe.length,
          (posHinge A B pe i (pos i)
            + negHinge A B pe i (negAdjust spc (blockStart spc i) (neg i))) := by
  unfold mbLoop
  have hinner : ∀ (b : ℕ) (s : LState),
      ((List.range spc).foldl
          (fun s' r => sampleStep A B pe pe.length spc pos neg (spc * b) (spc * b + r) s')
          s).lossAcc
        = s.lossAcc + ∑ r in Finset.range spc,
            (posHinge A B pe (spc * b + r) (pos (spc * b + r))
              + negHinge A B pe (spc * b + r)
                  (negAdjust spc (spc * b) (neg (spc * b + r)))) := by
    intro b s
    apply foldl_range_component
    intro s' r
    simp only [sampleStep]
    ring
  rw [foldl_range_component _ LState.lossAcc _ (fun s b => hinner b s)]
  rw [hq, nBlocks_mul spc q hspc]
  have hcongr : ∀ b ∈ Finset.range q,
      (∑ r in Finset.range spc,
          (posHinge A B pe (spc * b + r) (pos (spc * b + r))
            + negHinge A B pe (spc * b + r)
                (negAdjust spc (spc * b) (neg (spc * b + r)))))
        = ∑ r in Finset.range spc,
            (posHinge A B pe (spc * b + r) (pos (spc * b + r))
              + negHinge A B pe (spc * b + r)
                  (negAdjust spc (blockStart spc (spc * b + r)) (neg (spc * b + r)))) := by
    intro b _
    refine Finset.sum_congr rfl ?_
    intro r hr
    rw [blockStart_eq spc b r hspc (Finset.mem_range.mp hr)]
  rw [Finset.sum_congr rfl hcongr,
    sum_blocks
      (fun i => posHinge A B pe i (pos i)
        + negHinge A B pe i (negAdjust spc (blockStart spc i) (neg i))) spc q]
  simp [LState.start]

/-- C2.  On a 2-D batch whose length is a positive multiple of
`samples_per_class` exceeding it, `mb_loss` returns `1/n` times the sum
over all samples of the two margin hinge terms
`clamp(alpha + (d_ij[i,j_i] - beta), min 0)` and
`clamp(alpha - (d_ij[i,k_i] - beta), min 0)`, `j_i` and `k_i` being the
sampled positive and (re-indexed) negative indices. -/
theorem c2_mb_loss_formula (M : Model) (pe : List (List ℝ)) (spc : ℕ)
    (pos neg : ℕ → ℕ) (hn : 0 < pe.length) (hdvd : spc ∣ pe.length)
    (hlt : spc < pe.length) :
    mbLossVal M.mb_loss_alpha M.mb_loss_beta pe spc pos neg
      = (1 / (pe.length : ℝ)) *
          ∑ i in Finset.range pe.length,
            (max (M.mb_loss_alpha + (d_ij pe i (pos i) - M.mb_loss_beta)) 0
              + max (M.mb_loss_alpha
                  - (d_ij pe i (negAdjust spc (blockStart spc i) (neg i))
                    - M.mb_loss_beta)) 0) := by
  have hspc : 0 < spc := Nat.pos_of_dvd_of_pos hdvd hn
  obtain ⟨q, hq⟩ := hdvd
  unfold mbLossVal
  rw [mbLoop_lossAcc M.mb_loss_alpha M.mb_loss_beta pe spc q hspc hq]
  simp only [posHinge, negHinge]
  rw [one_div_mul_eq_div]

/-- C2 witness at a concrete 4-sample batch, 2 samples per class, with the
positive draw the block partner and the negative draw `k0 = 0`. -/
theorem c2_mb_loss_formula_witness :
    mbLossVal (⟨1, 2, 7⟩ : Model).mb_loss_alpha (⟨1, 2, 7⟩ : Model).mb_loss_beta
        [[1, 0], [0, 1], [2, 1], [1, 3]] 2
        (fun i => 2 * (i / 2) + (1 - i % 2)) (fun _ => 0)
      = (1 / (([[1, 0], [0, 1], [2, 1], [1, 3]] : List (List ℝ)).length : ℝ)) *
          ∑ i in Finset.range ([[1, 0], [0, 1], [2, 1], [1, 3]] : List (List ℝ)).length,
            (max ((⟨1, 2, 7⟩ : Model).mb_loss_alpha
                + (d_ij [[1, 0], [0, 1], [2, 1], [1, 3]] i ((fun i => 2 * (i / 2) + (1 - i % 2)) i)
                  - (⟨1, 2, 7⟩ : Model).mb_loss_beta)) 0
              + max ((⟨1, 2, 7⟩ : Model).mb_loss_alpha
                  - (d_ij [[1, 0], [0, 1], [2, 1], [1, 3]] i
                      (negAdjust 2 (blockStart 2 i) ((fun _ => 0) i))
                    - (⟨1, 2, 7⟩ : Model).mb_loss_beta)) 0) :=
  c2_mb_loss_formula ⟨1, 2, 7⟩ [[1, 0], [0, 1], [2, 1], [1, 3]] 2
    (fun i => 2 * (i / 2) + (1 - i % 2)) (fun _ => 0)
    (by decide) (by decide) (by decide)

/-- Any additive component of the loop state accumulates, over the double
loop of `mb_loss`, the double sum of its per-sample contributions. -/
theorem mbLoop_component (A B : ℝ) (pe : List (List ℝ)) (spc : ℕ)
    (pos neg : ℕ → ℕ) (g : LState → ℝ) (c : ℕ → ℕ → ℝ)
    (hstep : ∀ (b r : ℕ) (s' : LState),
      g (sampleStep A B pe pe.length spc pos neg (spc * b) (spc * b + r) s')
        = g s' + c b r) :
    g (mbLoop A B pe spc pos neg)
      = g LState.start
          + ∑ b in Finset.range (nBlocks pe.length spc),
              ∑ r in Finset.range spc, c b r := by
  unfold mbLoop
  exact foldl_range_component
    (fun s b =>
      (List.range spc).foldl
        (fun s' r => sampleStep A B pe pe.length spc pos neg (spc * b) (spc * b + r) s') s)
    g (fun b => ∑ r in Finset.range spc, c b r)
    (fun s b =>
      foldl_range_component
        (fun s' r => sampleStep A B pe pe.length spc pos neg (spc * b) (spc * b + r) s')
        g (c b) (fun s' r => hstep b r s') spc s)
    (nBlocks pe.length spc) LState.start

/-- Accumulated `true_pos + false_neg` of the sampling loop: each sample
contributes its whole class block, `spc`, so the total is `n * spc`. -/
theorem mbLoop_tp_fn (A B : ℝ) (pe : List (List ℝ)) (spc q : ℕ)
    (pos neg : ℕ → ℕ) (hspc : 0 < spc) (hq : pe.length = spc * q) :
    (mbLoop A B pe spc pos neg).true_pos + (mbLoop A B pe spc pos neg).false_neg
      = (pe.length : ℝ) * (spc : ℝ) := by
  have hstep : ∀ (b r : ℕ) (s' : LState),
      (fun st => st.true_pos + st.false_neg)
          (sampleStep A B pe pe.length spc pos neg (spc * b) (spc * b + r) s')
        = (fun st => st.true_pos + st.false_neg) s' + (spc : ℝ) := by
    intro b r s'
    simp only [sampleStep]
    have h1 := posCount_add_negCount B pe (spc * b + r) (spc * b) (spc * b + spc)
    have h2 : (spc * b + spc - spc * b : ℕ) = spc := by omega
    rw [h2] at h1
    linarith
  refine Eq.trans
    (mbLoop_component A B pe spc pos neg (fun st => st.true_pos + st.false_neg)
      (fun _b _r => (spc : ℝ)) hstep) ?_
  simp only [LState.start, Finset.sum_const, Finset.card_range, nsmul_eq_mul]
  rw [hq, nBlocks_mul spc q hspc]
  push_cast
  ring

/-- Accumulated `true_neg + false_pos` of the sampling loop: each sample
contributes everything outside its class block, `n - spc`, so the total is
`n * (n - spc)`. -/
theorem mbLoop_tn_fp (A B : ℝ) (pe : List (List ℝ)) (spc q : ℕ)
    (pos neg : ℕ → ℕ) (hspc : 0 < spc) (hn : 0 < pe.length)
    (hq : pe.length = spc * q) :
    (mbLoop A B pe spc pos neg).true_neg + (mbLoop A B pe spc pos neg).false_pos
      = (pe.length : ℝ) * ((pe.length - spc : ℕ) : ℝ) := by
  have hqpos : 0 < q := by
    rcases Nat.eq_zero_or_pos q with h | h
    · exfalso
      rw [h, Nat.mul_zero] at hq
      omega
    · exact h
  have hstep : ∀ (b r : ℕ) (s' : LState),
      (fun st => st.true_neg + st.false_pos)
          (sampleStep A B pe pe.length spc pos neg (spc * b) (spc * b + r) s')
        = (fun st => st.true_neg + st.false_pos) s'
            + (((spc * b : ℕ) : ℝ) + ((pe.length - (spc * b + spc) : ℕ) : ℝ)) := by
    intro b r s'
    simp only [sampleStep]
    have h1 := posCount_add_negCount B pe (spc * b + r) 0 (spc * b)
    have h2 := posCount_add_negCount B pe (spc * b + r) (spc * b + spc) pe.length
    have h3 : (spc * b - 0 : ℕ) = spc * b := by omega
    rw [h3] at h1
    linarith
  refine Eq.trans
    (mbLoop_component A B pe spc pos neg (fun st => st.true_neg + st.false_pos)
      (fun b _r => (((spc * b : ℕ) : ℝ) + ((pe.length - (spc * b + spc) : ℕ) : ℝ)))
      hstep) ?_
  rw [hq, nBlocks_mul spc q hspc]
  have hcongr : ∀ b ∈ Finset.range q,
      (∑ _r in Finset.range spc,
          (((spc * b : ℕ) : ℝ) + ((spc * q - (spc * b + spc) : ℕ) : ℝ)))
        = ∑ _r in Finset.range spc, ((spc * q - spc : ℕ) : ℝ) := by
    intro b hb
    refine Finset.sum_congr rfl ?_
    intro r _
    have hble : spc * b + spc ≤ spc * q := by
      have hb' : b + 1 ≤ q := Finset.mem_range.mp hb
      calc spc * b + spc = spc * (b + 1) := by ring
        _ ≤ spc * q := Nat.mul_le_mul_left spc hb'
    have hnat : spc * b + (spc * q - (spc * b + spc)) = spc * q - spc := by omega
    rw [← Nat.cast_add, hnat]
  rw [Finset.sum_congr rfl hcongr]
  simp only [LState.start, Finset.sum_const, Finset.card_range, nsmul_eq_mul]
  push_cast [Nat.cast_sub (Nat.le_mul_of_pos_right spc hqpos)]
  ring

/-- C9.  After every successful `mb_loss` call on a batch of `n`
embeddings, the stored counters satisfy
`true_pos + false_neg = samples_per_class` and
`true_neg + false_pos = n - samples_per_class`. -/
theorem c9_counter_invariants (cfg : Config) (s : MBLState) (no : NetOutput)
    (pos neg : ℕ → ℕ)
    (hg : MBGuards cfg.params.samples_per_class no.pred_embeddings pos neg) :
    (mb_loss_m cfg s no pos neg).map
        (fun r => (r.2.1.true_pos + r.2.1.false_neg,
          r.2.1.true_neg + r.2.1.false_pos))
      = some ((cfg.params.samples_per_class : ℝ),
          (no.pred_embeddings.length : ℝ) - (cfg.params.samples_per_class : ℝ)) := by
  have hg' := hg
  obtain ⟨hn, hrect, hdvd, hlt, hdraw⟩ := hg'
  have hspc : 0 < cfg.params.samples_per_class := Nat.pos_of_dvd_of_pos hdvd hn
  obtain ⟨q, hq⟩ := hdvd
  have hne : ((no.pred_embeddings.length : ℝ)) ≠ 0 := (Nat.cast_pos.mpr hn).ne'
  have h1 : (mbLoop cfg.model.mb_loss_alpha cfg.model.mb_loss_beta
        no.pred_embeddings cfg.params.samples_per_class pos neg).true_pos
          / (no.pred_embeddings.length : ℝ)
      + (mbLoop cfg.model.mb_loss_alpha cfg.model.mb_loss_beta
          no.pred_embeddings cfg.params.samples_per_class pos neg).false_neg
          / (no.pred_embeddings.length : ℝ)
      = (cfg.params.samples_per_class : ℝ) := by
    rw [div_add_div_same,
      mbLoop_tp_fn cfg.model.mb_loss_alpha cfg.model.mb_loss_beta
        no.pred_embeddings cfg.params.samples_per_class q pos neg hspc hq,
      mul_comm, mul_div_assoc, div_self hne, mul_one]
  have h2 : (mbLoop cfg.model.mb_loss_alpha cfg.model.mb_loss_beta
        no.pred_embeddings cfg.params.samples_per_class pos neg).true_neg
          / (no.pred_embeddings.length : ℝ)
      + (mbLoop cfg.model.mb_loss_alpha cfg.model.mb_loss_beta
          no.pred_embeddings cfg.params.samples_per_class pos neg).false_pos
          / (no.pred_embeddings.length : ℝ)
      = (no.pred_embeddings.length : ℝ) - (cfg.params.samples_per_class : ℝ) := by
    rw [div_add_div_same,
      mbLoop_tn_fp cfg.model.mb_loss_alpha cfg.model.mb_loss_beta
        no.pred_embeddings cfg.params.samples_per_class q pos neg hspc hn hq,
      mul_comm, mul_div_assoc, div_self hne, mul_one,
      Nat.cast_sub (le_of_lt hlt)]
  simp only [mb_loss_m]
  rw [if_pos hg, Option.map_some']
  simp only [h1, h2]

/-- C9 witness at a concrete 4-sample batch with 2 samples per class. -/
theorem c9_counter_invariants_witness :
    (mb_loss_m ⟨⟨1, 2, 7⟩, [4, 9], ⟨2, 5⟩, 5⟩
          ⟨0, 0, 0, fun _ _ => 0, 0, 0, 0, 0, 0⟩
          ⟨[[1], [0], [1], [2]], [[1, 0], [0, 1], [2, 1], [1, 3]]⟩
          (fun i => 2 * (i / 2) + (1 - i % 2)) (fun _ => 0)).map
        (fun r => (r.2.1.true_pos + r.2.1.false_neg,
          r.2.1.true_neg + r.2.1.false_pos))
      = some (((⟨⟨1, 2, 7⟩, [4, 9], ⟨2, 5⟩, 5⟩ : Config).params.samples_per_class : ℝ),
          ((⟨[[1], [0], [1], [2]], [[1, 0], [0, 1], [2, 1], [1, 3]]⟩ : NetOutput).pred_embeddings.length : ℝ)
            - ((⟨⟨1, 2, 7⟩, [4, 9], ⟨2, 5⟩, 5⟩ : Config).params.samples_per_class : ℝ)) :=
  c9_counter_invariants ⟨⟨1, 2, 7⟩, [4, 9], ⟨2, 5⟩, 5⟩
    ⟨0, 0, 0, fun _ _ => 0, 0, 0, 0, 0, 0⟩
    ⟨[[1], [0], [1], [2]], [[1, 0], [0, 1], [2, 1], [1, 3]]⟩
    (fun i => 2 * (i / 2) + (1 - i % 2)) (fun _ => 0) (by decide)

/-- C1.  Whenever it completes, `loss` returns exactly the sum of the
classification term `l2_loss(net_output, y_class)` and the metric-learning
term `mb_loss(net_output, y_class)`, and nothing else. -/
theorem c1_loss_is_sum (cfg : Config) (s : MBLState) (no : NetOutput)
    (y : List ℤ) (pos neg : ℕ → ℕ)
    (hg : MBGuards cfg.params.samples_per_class no.pred_embeddings pos neg) :
    (loss_m cfg s no y pos neg).map (fun r => r.1)
      = some (l2LossVal cfg no y
          + mbLossVal cfg.model.mb_loss_alpha cfg.model.mb_loss_beta
              no.pred_embeddings cfg.params.samples_per_class pos neg) := by
  simp only [loss_m, l2_loss_m, mb_loss_m]
  rw [if_pos hg]
  rfl

/-- C1 witness at a concrete batch. -/
theorem c1_loss_is_sum_witness :
    (loss_m ⟨⟨1, 2, 7⟩, [4, 9], ⟨2, 5⟩, 5⟩
          ⟨0, 0, 0, fun _ _ => 0, 0, 0, 0, 0, 0⟩
          ⟨[[1], [0], [1], [2]], [[1, 0], [0, 1], [2, 1], [1, 3]]⟩
          [4, 9, 9, 4]
          (fun i => 2 * (i / 2) + (1 - i % 2)) (fun _ => 0)).map (fun r => r.1)
      = some (l2LossVal ⟨⟨1, 2, 7⟩, [4, 9], ⟨2, 5⟩, 5⟩
            ⟨[[1], [0], [1], [2]], [[1, 0], [0, 1], [2, 1], [1, 3]]⟩ [4, 9, 9, 4]
          + mbLossVal (⟨1, 2, 7⟩ : Model).mb_loss_alpha (⟨1, 2, 7⟩ : Model).mb_loss_beta
              [[1, 0], [0, 1], [2, 1], [1, 3]] 2
              (fun i => 2 * (i / 2) + (1 - i % 2)) (fun _ => 0)) :=
  c1_loss_is_sum ⟨⟨1, 2, 7⟩, [4, 9], ⟨2, 5⟩, 5⟩
    ⟨0, 0, 0, fun _ _ => 0, 0, 0, 0, 0, 0⟩
    ⟨[[1], [0], [1], [2]], [[1, 0], [0, 1], [2, 1], [1, 3]]⟩
    [4, 9, 9, 4]
    (fun i => 2 * (i / 2) + (1 - i % 2)) (fun _ => 0) (by decide)

/-- C5.  The value returned by `loss` does not depend on the mutable
attributes the object carried before the call (first conjunct, for any two
prior states), and the state a `loss` call leaves behind does not change
the value of a repeated `loss` call with the same arguments and draws
(second conjunct). -/
theorem c5_no_persistent_state (cfg : Config) (s s' : MBLState)
    (no : NetOutput) (y : List ℤ) (pos neg : ℕ → ℕ) :
    (loss_m cfg s no y pos neg).map (fun r => r.1)
        = (loss_m cfg s' no y pos neg).map (fun r => r.1) ∧
      (loss_m cfg ((loss_m cfg s no y pos neg).elim s (fun r => r.2.1))
            no y pos neg).map (fun r => r.1)
        = (loss_m cfg s no y pos neg).map (fun r => r.1) := by
  have key : ∀ s₀ s₁ : MBLState,
      (loss_m cfg s₀ no y pos neg).map (fun r => r.1)
        = (loss_m cfg s₁ no y pos neg).map (fun r => r.1) := by
    intro s₀ s₁
    simp only [loss_m, l2_loss_m, mb_loss_m]
    by_cases hg : MBGuards cfg.params.samples_per_class no.pred_embeddings pos neg
    · rw [if_pos hg, if_pos hg]
      rfl
    · rw [if_neg hg, if_neg hg]
  exact ⟨key s s', key _ s⟩

/-- C7 counterexample: constructing a `MarginBaseLoss` at a concrete input
produces a nonempty output trace (the constructor's
`print('classes: ', len(self.classes))`), so construction does perform
I/O. -/
theorem c7_io_counterexample :
    (init ⟨1, 2, 7⟩ [4, 9] ⟨2, 5⟩).map Prod.snd = some ["classes:  2"] ∧
      (init ⟨1, 2, 7⟩ [4, 9] ⟨2, 5⟩).map Prod.snd ≠ some [] := by
  constructor
  · simp only [init, if_pos (by decide : 2 ≤ (⟨2, 5⟩ : Params).samples_per_class),
      Option.map_some']
    rfl
  · simp only [init, if_pos (by decide : 2 ≤ (⟨2, 5⟩ : Params).samples_per_class),
      Option.map_some']
    simp

/-- C7 amended: evaluating `l2_loss`, `mb_loss` or `loss` performs no I/O
(their output traces are empty); the only I/O of the class is the single
diagnostic line printed by the constructor. -/
theorem c7_no_io_amended (m : Model) (cls : List ℤ) (p : Params)
    (cfg : Config) (s : MBLState) (no : NetOutput) (y : List ℤ)
    (pos neg : ℕ → ℕ) :
    (init m cls p).map Prod.snd
        = (if 2 ≤ p.samples_per_class then
            some ["classes:  " ++ toString (sortedClasses cls).length]
          else none) ∧
      (l2_loss_m cfg s no y).2.2 = [] ∧
      ((mb_loss_m cfg s no pos neg).map (fun r => r.2.2)).getD [] = [] ∧
      ((loss_m cfg s no y pos neg).map (fun r => r.2.2)).getD [] = [] := by
  refine ⟨?_, rfl, ?_, ?_⟩
  · simp only [init]
    by_cases h : 2 ≤ p.samples_per_class
    · rw [if_pos h, if_pos h, Option.map_some']
    · rw [if_neg h, if_neg h, Option.map_none']
  · simp only [mb_loss_m]
    by_cases hg : MBGuards cfg.params.samples_per_class no.pred_embeddings pos neg
    · rw [if_pos hg, Option.map_some']
      rfl
    · rw [if_neg hg, Option.map_none']
      rfl
  · simp only [loss_m, l2_loss_m, mb_loss_m]
    by_cases hg : MBGuards cfg.params.samples_per_class no.pred_embeddings pos neg
    · rw [if_pos hg]
      rfl
    · rw [if_neg hg]
      rfl

/-- C4.  The loss computation reads the model only through
`mb_loss_alpha` and `mb_loss_beta`: two models agreeing on those two
scalars give identical `loss` and `mb_loss` results (values, stored
counters and all), for identical inputs and identical random draws. -/
theorem c4_model_dependence (m1 m2 : Model) (cls : List ℤ) (p : Params)
    (lr : ℝ) (s : MBLState) (no : NetOutput) (y : List ℤ)
    (pos neg : ℕ → ℕ) (h1 : m1.mb_loss_alpha = m2.mb_loss_alpha)
    (h2 : m1.mb_loss_beta = m2.mb_loss_beta) :
    loss_m ⟨m1, cls, p, lr⟩ s no y pos neg
        = loss_m ⟨m2, cls, p, lr⟩ s no y pos neg ∧
      mb_loss_m ⟨m1, cls, p, lr⟩ s no pos neg
        = mb_loss_m ⟨m2, cls, p, lr⟩ s no pos neg := by
  have hmb : ∀ st : MBLState,
      mb_loss_m ⟨m1, cls, p, lr⟩ st no pos neg
        = mb_loss_m ⟨m2, cls, p, lr⟩ st no pos neg := by
    intro st
    simp only [mb_loss_m, h1, h2]
  refine ⟨?_, hmb s⟩
  simp only [loss_m, l2_loss_m, l2LossVal, hmb]

/-- C4 witness: two models differing in their unread parameters but
agreeing on the two loss scalars. -/
theorem c4_model_dependence_witness :
    loss_m ⟨⟨1, 2, 0⟩, [4, 9], ⟨2, 5⟩, 5⟩
          ⟨0, 0, 0, fun _ _ => 0, 0, 0, 0, 0, 0⟩
          ⟨[[1], [0], [1], [2]], [[1, 0], [0, 1], [2, 1], [1, 3]]⟩
          [4, 9, 9, 4] (fun i => 2 * (i / 2) + (1 - i % 2)) (fun _ => 0)
        = loss_m ⟨⟨1, 2, 9⟩, [4, 9], ⟨2, 5⟩, 5⟩
            ⟨0, 0, 0, fun _ _ => 0, 0, 0, 0, 0, 0⟩
            ⟨[[1], [0], [1], [2]], [[1, 0], [0, 1], [2, 1], [1, 3]]⟩
            [4, 9, 9, 4] (fun i => 2 * (i / 2) + (1 - i % 2)) (fun _ => 0) ∧
      mb_loss_m ⟨⟨1, 2, 0⟩, [4, 9], ⟨2, 5⟩, 5⟩
          ⟨0, 0, 0, fun _ _ => 0, 0, 0, 0, 0, 0⟩
          ⟨[[1], [0], [1], [2]], [[1, 0], [0, 1], [2, 1], [1, 3]]⟩
          (fun i => 2 * (i / 2) + (1 - i % 2)) (fun _ => 0)
        = mb_loss_m ⟨⟨1, 2, 9⟩, [4, 9], ⟨2, 5⟩, 5⟩
            ⟨0, 0, 0, fun _ _ => 0, 0, 0, 0, 0, 0⟩
            ⟨[[1], [0], [1], [2]], [[1, 0], [0, 1], [2, 1], [1, 3]]⟩
            (fun i => 2 * (i / 2) + (1 - i % 2)) (fun _ => 0) :=
  c4_model_dependence ⟨1, 2, 0⟩ ⟨1, 2, 9⟩ [4, 9] ⟨2, 5⟩ 5
    ⟨0, 0, 0, fun _ _ => 0, 0, 0, 0, 0, 0⟩
    ⟨[[1], [0], [1], [2]], [[1, 0], [0, 1], [2, 1], [1, 3]]⟩
    [4, 9, 9, 4] (fun i => 2 * (i / 2) + (1 - i % 2)) (fun _ => 0) rfl rfl

/-- C6.  On a nonempty 2-D batch whose length is a multiple of
`samples_per_class` exceeding it, with draws that `np.random.choice` can
actually return (in-population, nonzero weight), `mb_loss` completes: the
shape assertion and every subsequent index access succeed. -/
theorem c6_shape_and_indexing (cfg : Config) (s : MBLState) (no : NetOutput)
    (pos neg : ℕ → ℕ)
    (hn : 0 < no.pred_embeddings.length)
    (hrect : Rect no.pred_embeddings)
    (hdvd : cfg.params.samples_per_class ∣ no.pred_embeddings.length)
    (hlt : cfg.params.samples_per_class < no.pred_embeddings.length)
    (hspc2 : 2 ≤ cfg.params.samples_per_class)
    (hpos : ∀ i, i < no.pred_embeddings.length →
      blockStart cfg.params.samples_per_class i ≤ pos i ∧
        pos i < blockStart cfg.params.samples_per_class i + cfg.params.samples_per_class ∧
        weight no.pred_embeddings cfg.lambda_rev i (pos i) ≠ 0)
    (hneg : ∀ i, i < no.pred_embeddings.length →
      neg i < no.pred_embeddings.length - cfg.params.samples_per_class) :
    (mb_loss_m cfg s no pos neg).isSome = true := by
  have hg : MBGuards cfg.params.samples_per_class no.pred_embeddings pos neg := by
    refine ⟨hn, hrect, hdvd, hlt, ?_⟩
    intro i hi
    refine ⟨(hpos i hi).1, (hpos i hi).2.1, ?_, hneg i hi⟩
    intro he
    apply (hpos i hi).2.2
    unfold weight
    rw [if_pos he]
  simp only [mb_loss_m]
  rw [if_pos hg]
  rfl

/-- C6 witness at a concrete 4-sample 2-D batch. -/
theorem c6_shape_and_indexing_witness :
    (mb_loss_m ⟨⟨1, 2, 7⟩, [4, 9], ⟨2, 5⟩, 5⟩
        ⟨0, 0, 0, fun _ _ => 0, 0, 0, 0, 0, 0⟩
        ⟨[[1], [0], [1], [2]], [[1, 0], [0, 1], [2, 1], [1, 3]]⟩
        (fun i => 2 * (i / 2) + (1 - i % 2)) (fun _ => 0)).isSome = true :=
  c6_shape_and_indexing ⟨⟨1, 2, 7⟩, [4, 9], ⟨2, 5⟩, 5⟩
    ⟨0, 0, 0, fun _ _ => 0, 0, 0, 0, 0, 0⟩
    ⟨[[1], [0], [1], [2]], [[1, 0], [0, 1], [2, 1], [1, 3]]⟩
    (fun i => 2 * (i / 2) + (1 - i % 2)) (fun _ => 0)
    (by decide) (by decide) (by decide) (by decide) (by decide)
    (by
      intro i hi
      have hi4 : i < 4 := hi
      interval_cases i <;>
        exact ⟨by decide, by decide, (weight_pos _ _ _ _ (by decide)).ne'⟩)
    (fun i _ => (by decide : (0 : ℕ) < 4 - 2))

/-- A dictionary fold over pairs none of whose keys match leaves the
accumulator unchanged. -/
theorem dict_foldl_no_match (v : ℤ) (L : List (ℕ × ℤ)) (acc : Option ℕ)
    (h : ∀ p ∈ L, p.2 ≠ v) :
    L.foldl (fun a p => if p.2 = v then some p.1 else a) acc = acc := by
  induction L generalizing acc with
  | nil => rfl
  | cons x xs ih =>
      rw [List.foldl_cons, if_neg (h x (List.mem_cons_self x xs))]
      exact ih acc (fun p hp => h p (List.mem_cons_of_mem x hp))

/-- Looking up a label absent from the class list yields no entry. -/
theorem classesDict_not_mem (cs : List ℤ) (v : ℤ) (hv : v ∉ cs) :
    classesDict cs v = none := by
  unfold classesDict
  apply dict_foldl_no_match
  intro p hp hpv
  apply hv
  rw [← hpv]
  have h2 : p.2 ∈ cs.enum.map Prod.snd := List.mem_map_of_mem Prod.snd hp
  rw [List.enum_map_snd] at h2
  exact h2

/-- On a duplicate-free class list the dictionary fold, started at any
enumeration offset, returns the offset plus the index of the label. -/
theorem classesDict_aux (v : ℤ) (l : List ℤ) (hnd : l.Nodup) (hv : v ∈ l) :
    ∀ i : ℕ,
      (List.enumFrom i l).foldl (fun a p => if p.2 = v then some p.1 else a) none
        = some (i + List.indexOf v l) := by
  induction l with
  | nil => exact absurd hv (List.not_mem_nil v)
  | cons x xs ih =>
      intro i
      rw [List.enumFrom_cons, List.foldl_cons]
      by_cases hx : x = v
      · rw [if_pos hx]
        have hxs : x ∉ xs := (List.nodup_cons.mp hnd).1
        have hvxs : ∀ p ∈ List.enumFrom (i + 1) xs, p.2 ≠ v := by
          intro p hp hpv
          apply hxs
          rw [hx, ← hpv]
          have h2 : p.2 ∈ (List.enumFrom (i + 1) xs).map Prod.snd :=
            List.mem_map_of_mem Prod.snd hp
          have h3 : (List.enumFrom (i + 1) xs).map Prod.snd = xs := by
            simp
          rw [h3] at h2
          exact h2
        rw [dict_foldl_no_match v _ _ hvxs, hx, List.indexOf_cons_self, Nat.add_zero]
      · rw [if_neg hx]
        have hvxs : v ∈ xs := by
          rcases List.mem_cons.mp hv with h | h
          · exact absurd h.symm hx
          · exact h
        rw [ih (List.nodup_cons.mp hnd).2 hvxs (i + 1),
          List.indexOf_cons_ne xs hx]
        exact congrArg some (by omega)

/-- On a duplicate-free class list the dictionary maps a member to its
index. -/
theorem classesDict_mem (cs : List ℤ) (v : ℤ) (hnd : cs.Nodup)
    (hv : v ∈ cs) : classesDict cs v = some (List.indexOf v cs) := by
  unfold classesDict
  rw [List.enum_eq_enumFrom]
  rw [classesDict_aux v cs hnd hv 0, Nat.zero_add]

/-- A member of a duplicate-free class list is mapped to its index. -/
theorem classToId_mem (cs : List ℤ) (v : ℤ) (hnd : cs.Nodup) (hv : v ∈ cs) :
    classToId cs v = (List.indexOf v cs : ℤ) := by
  unfold classToId
  rw [classesDict_mem cs v hnd hv]
  rfl

/-- A label outside the class list is mapped to the sentinel `-100`. -/
theorem classToId_not_mem (cs : List ℤ) (v : ℤ) (hv : v ∉ cs) :
    classToId cs v = -100 := by
  unfold classToId
  rw [classesDict_not_mem cs v hv]
  rfl

/-- Filtering the sentinel out of the translated targets keeps exactly the
samples whose label belongs to the (duplicate-free) class list, and the
translated target of a kept sample is its label's index. -/
theorem crossEntropy_filter (cs : List ℤ) (hnd : cs.Nodup)
    (pc : List (List ℝ)) (y : List ℤ) :
    crossEntropy (-100) pc (classes_to_ids cs y)
      = (((pc.zip y).filter (fun q => q.2 ∈ cs)).map
            (fun q => ceSample q.1 (List.indexOf q.2 cs))).sum
        / ((((pc.zip y).filter (fun q => q.2 ∈ cs)).length : ℝ)) := by
  have heq : (pc.zip (y.map (classToId cs))).filter (fun p => p.2 ≠ (-100 : ℤ))
      = ((pc.zip y).filter (fun q => q.2 ∈ cs)).map (Prod.map id (classToId cs)) := by
    rw [List.zip_map_right, List.filter_map]
    refine congrArg _ (List.filter_congr ?_)
    intro q _
    simp only [Function.comp_apply, Prod.map_snd]
    rw [decide_eq_decide]
    constructor
    · intro hne
      by_contra hq
      exact hne (classToId_not_mem cs q.2 hq)
    · intro hq
      rw [classToId_mem cs q.2 hnd hq]
      intro hbad
      omega
  unfold crossEntropy classes_to_ids
  rw [heq, List.map_map, List.length_map]
  have hmc : List.map ((fun q : List ℝ × ℤ => ceSample q.1 q.2.toNat)
        ∘ Prod.map id (classToId cs))
        (List.filter (fun q => q.2 ∈ cs) (pc.zip y))
      = List.map (fun q => ceSample q.1 (List.indexOf q.2 cs))
          (List.filter (fun q => q.2 ∈ cs) (pc.zip y)) := by
    apply List.map_congr_left
    intro q hq
    have hq2 : q.2 ∈ cs := of_decide_eq_true (List.mem_filter.mp hq).2
    simp only [Function.comp_apply, Prod.map_snd, Prod.map_fst, id_eq]
    rw [classToId_mem cs q.2 hnd hq2, Int.toNat_ofNat]
  rw [hmc]

/-- C8.  With a duplicate-free class set, `classes_to_ids` maps every
member to its rank in the sorted class list and every other label to the
sentinel `-100`, and `l2_loss` averages the per-sample cross-entropy over
exactly the samples whose label is a member: unknown labels contribute
nothing. -/
theorem c8_classes_to_ids (cs : List ℤ) (m : Model) (p : Params) (lr : ℝ)
    (no : NetOutput) (y : List ℤ) (v : ℤ) (hnd : cs.Nodup) :
    (v ∈ cs → classToId (sortedClasses cs) v
        = (List.indexOf v (sortedClasses cs) : ℤ)) ∧
      (v ∉ cs → classToId (sortedClasses cs) v = -100) ∧
      l2LossVal ⟨m, sortedClasses cs, p, lr⟩ no y
        = (((no.pred_class.zip y).filter (fun q => q.2 ∈ cs)).map
              (fun q => ceSample q.1 (List.indexOf q.2 (sortedClasses cs)))).sum
          / (((no.pred_class.zip y).filter (fun q => q.2 ∈ cs)).length : ℝ) := by
  have hperm : (sortedClasses cs).Perm cs := List.perm_insertionSort _ cs
  have hnd' : (sortedClasses cs).Nodup := hperm.symm.nodup hnd
  refine ⟨?_, ?_, ?_⟩
  · intro hv
    exact classToId_mem _ v hnd' (hperm.mem_iff.mpr hv)
  · intro hv
    exact classToId_not_mem _ v (fun h => hv (hperm.mem_iff.mp h))
  · have hl2 : l2LossVal ⟨m, sortedClasses cs, p, lr⟩ no y
        = crossEntropy (-100) no.pred_class (classes_to_ids (sortedClasses cs) y) := rfl
    rw [hl2, crossEntropy_filter (sortedClasses cs) hnd' no.pred_class y]
    have hf : List.filter (fun q : List ℝ × ℤ => q.2 ∈ sortedClasses cs)
          (no.pred_class.zip y)
        = List.filter (fun q : List ℝ × ℤ => q.2 ∈ cs) (no.pred_class.zip y) := by
      apply List.filter_congr
      intro q _
      exact decide_eq_decide.mpr hperm.mem_iff
    rw [hf]

/-- C8 witness at a concrete two-class set with one known and one unknown
label. -/
theorem c8_classes_to_ids_witness :
    ((3 : ℤ) ∈ ([7, 3] : List ℤ) → classToId (sortedClasses [7, 3]) 3
        = (List.indexOf (3 : ℤ) (sortedClasses [7, 3]) : ℤ)) ∧
      ((3 : ℤ) ∉ ([7, 3] : List ℤ) → classToId (sortedClasses [7, 3]) 3 = -100) ∧
      l2LossVal ⟨⟨1, 2, 7⟩, sortedClasses [7, 3], ⟨2, 5⟩, 5⟩
          ⟨[[1, 0], [0, 1]], [[1], [0]]⟩ [3, 8]
        = (((([[1, 0], [0, 1]] : List (List ℝ)).zip ([3, 8] : List ℤ)).filter
              (fun q => q.2 ∈ ([7, 3] : List ℤ))).map
              (fun q => ceSample q.1 (List.indexOf q.2 (sortedClasses [7, 3])))).sum
          / (((([[1, 0], [0, 1]] : List (List ℝ)).zip ([3, 8] : List ℤ)).filter
              (fun q => q.2 ∈ ([7, 3] : List ℤ))).length : ℝ) :=
  c8_classes_to_ids [7, 3] ⟨1, 2, 7⟩ ⟨2, 5⟩ 5
    ⟨[[1, 0], [0, 1]], [[1], [0]]⟩ [3, 8] 3 (by decide)
